import Mathlib

/-!
# Verification of the InfoSearch indexer and boolean query engine

Shallow embedding of the core of the InfoSearch repository:

* `src/indexer/main.cpp` — the tokenizer loop of `process_html` (which
  feeds raw characters to `is_valid_char`; the tag-stripping state machine
  `html_filter_char` is defined but never called), the stemmer, the
  in-memory inverted index (`add_term` / `add_doc`) and the binary writer
  (`save_inverted`);
* `src/engine/main.cpp` — the binary reader (`load_inverted`), the set
  operations (`intersect`, `union_op`, `complement`), the query lexer
  (`get_next_token`) and the recursive-descent evaluator
  (`parse_expression` / `parse_term` / `parse_factor`).

Files are modelled as lists of bytes (`Nat` values below 256), machine
integers as `Nat` with explicit little-endian encodings, and C++ stream
reads with their failbit semantics.  Sets of document ids are `Finset Nat`.
-/

/-! ## Little-endian byte encodings

The indexer and engine run on the same Linux/x86-64 host: `int` is 4 bytes,
`long long` is 8 bytes, `wchar_t` is 4 bytes, all little endian. -/

/-- Encode a value as `n` little-endian bytes (truncating, as `fwrite` of a
fixed-size integer does). -/
def toLE : Nat → Nat → List Nat
  | 0, _ => []
  | k + 1, v => v % 256 :: toLE k (v / 256)

/-- Decode a little-endian byte list into a natural number. -/
def fromLE : List Nat → Nat
  | [] => 0
  | b :: bs => b + 256 * fromLE bs

/-! ## The indexer's in-memory inverted index entry, as written to disk

`TermEntry` in `src/indexer/main.cpp`: a wide-character term, the total
occurrence count `freq`, the containing-document count `doc_count` and the
postings linked list `docs` (modelled as the list of its node values in
list order, head first). -/

structure IEntry where
  term : List Nat
  freq : Nat
  doc_count : Nat
  docs : List Nat
deriving DecidableEq, Repr

/-- `save_inverted` from `src/indexer/main.cpp` (lines 245-272), at byte
level.  It writes `stats.total_unique_terms` (`long long`, equal to the
number of entries in the table) and then, for every entry in table order:
`int` term length, the term as `wcslen` units of `wchar_t` (4 bytes each),
`int doc_count`, and one `int` per postings node.  Note that, exactly as in
the source, the entry's `freq` field is never written.  The hash table is
modelled by the list of its entries in iteration order (terms are unique,
so bucket structure only affects the order of entries). -/
def save_inverted (idx : List IEntry) : List Nat :=
  toLE 8 idx.length ++
  idx.flatMap (fun e =>
    toLE 4 e.term.length ++ e.term.flatMap (toLE 4) ++
    toLE 4 e.doc_count ++ e.docs.flatMap (toLE 4))

/-! ## The engine's loader, with C++ input-stream semantics

`std::ifstream::read` copies as many bytes as are available into the
destination buffer; if fewer than requested are available it sets the
failbit, and once the failbit is set every later read does nothing, leaving
the destination unchanged.  `RStream.readBytes` models exactly that: `old`
is the byte image the destination holds before the read (zeros for
value-initialized fields, an arbitrary `junk` value for uninitialized
locals). -/

structure RStream where
  bytes : List Nat
  fail : Bool

/-- One `in.read(ptr, n)` call: returns the byte image the destination
holds afterwards together with the new stream state. -/
def RStream.readBytes (s : RStream) (n : Nat) (old : List Nat) :
    List Nat × RStream :=
  if s.fail then (old, s)
  else if n ≤ s.bytes.length then (s.bytes.take n, ⟨s.bytes.drop n, false⟩)
  else (s.bytes ++ old.drop s.bytes.length, ⟨[], true⟩)

/-- A `TermEntry` as reconstructed by the engine (`src/engine/main.cpp`):
`freq` read as `long long`, the term as a byte string, `doc_count`, and the
postings rebuilt in file order. -/
structure LEntry where
  freq : Nat
  term : List Nat
  doc_count : Nat
  docs : List Nat
deriving DecidableEq, Repr

/-- Result of a load: `errored` is true exactly when the "Cannot open"
branch ran; `entries` is the reconstructed table in insertion order. -/
structure LoadResult where
  errored : Bool
  entries : List LEntry
deriving DecidableEq, Repr

/-- The inner `for (j = 0; j < doc_count; ++j)` loop of `load_inverted`:
reads one `int` doc id per iteration.  The loop-local `int doc_id` is
uninitialized, so a failed read leaves the arbitrary value `junk k` in it;
`k` is a counter distinguishing the separate indeterminate locals. -/
def load_docs (junk : Nat → Nat) :
    Nat → RStream → Nat → List Nat × RStream × Nat
  | 0, s, k => ([], s, k)
  | j + 1, s, k =>
    let r := s.readBytes 4 (toLE 4 (junk k))
    let rest := load_docs junk j r.2 (k + 1)
    (fromLE r.1 :: rest.1, rest.2.1, rest.2.2)

/-- The entry loop of `load_inverted` (lines 80-104).  Per entry it reads
`long long freq` (the freshly `new`-ed entry is value-initialized, so a
failed read leaves 0), an `int` term length into an uninitialized local,
`l` bytes of term text into a string of `l` NUL bytes, `int doc_count`
(value-initialized, 0 on failed read) and then the doc-id loop.  A
`doc_count` whose byte pattern is a negative `int` (≥ 2^31) makes the
`j < doc_count` loop run zero times. -/
def load_entries (junk : Nat → Nat) :
    Nat → RStream → Nat → List LEntry × RStream
  | 0, s, _ => ([], s)
  | i + 1, s, k =>
    let rf := s.readBytes 8 (toLE 8 0)
    let rl := rf.2.readBytes 4 (toLE 4 (junk k))
    let l := fromLE rl.1
    let rt := rl.2.readBytes l (List.replicate l 0)
    let rd := rt.2.readBytes 4 (toLE 4 0)
    let dc := fromLE rd.1
    let iters := if dc < 2 ^ 31 then dc else 0
    let rdocs := load_docs junk iters rd.2 (k + 1)
    let rest := load_entries junk i rdocs.2.1 rdocs.2.2
    (⟨fromLE rf.1, rt.1, dc, rdocs.1⟩ :: rest.1, rest.2)

/-- `load_inverted` from `src/engine/main.cpp` (lines 70-107).  `none`
models a file that cannot be opened: the code prints "Cannot open inverted
index file" and returns with the table untouched — the only error branch in
the function.  Otherwise it reads `long long total_terms` (an uninitialized
local, hence `junk 0` on a short file) and runs the entry loop; no read is
ever checked for failure.  Entries are listed in insertion order
(`hash_table[e->term] = e`). -/
def load_inverted (file : Option (List Nat)) (junk : Nat → Nat) :
    LoadResult :=
  match file with
  | none => ⟨true, []⟩
  | some bs =>
    let r0 := RStream.readBytes ⟨bs, false⟩ 8 (toLE 8 (junk 0))
    let total := fromLE r0.1
    let iters := if total < 2 ^ 63 then total else 0
    ⟨false, (load_entries junk iters r0.2 1).1⟩

/-- The in-memory index used for the round-trip check: one term "a"
(code point 97) with total frequency 2 and postings {0, 1} (doc 0 then
doc 1 recorded, so the linked list reads `[1, 0]`). -/
def rtIndex : List IEntry := [⟨[97], 2, 2, [1, 0]⟩]

/-- A truncated inverted-index file: it declares one term whose entry
claims `doc_count = 5`, but the file ends after only two of the five
posting ints (33 bytes in total). -/
def truncFile : List Nat :=
  toLE 8 1 ++ toLE 8 7 ++ toLE 4 1 ++ [97] ++ toLE 4 5 ++ toLE 4 3 ++ toLE 4 4

/-! ## HTML tag stripping (`src/indexer/main.cpp`, lines 57-97) — dead code

`html_filter_char` and its `HtmlState` are defined in the indexer but
never invoked: `process_html` declares `HtmlState st = {};` at line 161
and then tokenizes the raw character stream directly.  The state machine
is embedded here because claim C2 is about it; the tokenizer the program
actually runs is `process_tokens` below.

`HtmlState` mirrors the C struct: the three mode flags, the `is_closing`
flag, and the collected tag-name buffer (`char tag[32]`, kept lowercased
and NUL-terminated by the code; modelled as the list of collected
characters, capped at 31).  `iswalpha`/`towlower` are applied by the code
only to tag-name characters, which for the `script`/`style` comparisons are
ASCII letters; they are modelled by `Char.isAlpha`/`Char.toLower`. -/

structure HtmlState where
  inside_tag : Bool
  inside_script : Bool
  inside_style : Bool
  is_closing : Bool
  tag : List Char
deriving DecidableEq, Repr

/-- The zero-initialized `HtmlState st = {}` of `process_html`. -/
def initHtmlState : HtmlState := ⟨false, false, false, false, []⟩

/-- `html_filter_char` (lines 67-97; defined but never called by any other
function of the indexer): returns the character a caller may consume
(`some c`) or nothing (the C function returns `0`), plus the updated
state.  Structure follows the source: `<` always (re)enters tag
mode and resets the collected name; inside a tag, `/` marks a closing tag
and letters are lowercased into the name buffer while it has room; `>`
leaves tag mode and toggles the script/style flag when the collected name
compares equal to "script"/"style"; outside tags, script/style content is
dropped; everything else is passed through. -/
def html_filter_char (c : Char) (st : HtmlState) : Option Char × HtmlState :=
  if c = '<' then
    (none, { st with inside_tag := true, tag := [], is_closing := false })
  else if st.inside_tag then
    let st1 :=
      if c = '/' then { st with is_closing := true }
      else if c.isAlpha ∧ st.tag.length < 31 then
        { st with tag := st.tag ++ [c.toLower] }
      else st
    if c = '>' then
      let st2 := { st1 with inside_tag := false }
      if st2.tag = "script".toList then
        (none, { st2 with inside_script := !st2.is_closing })
      else if st2.tag = "style".toList then
        (none, { st2 with inside_style := !st2.is_closing })
      else (none, st2)
    else (none, st1)
  else if st.inside_script ∨ st.inside_style then (none, st)
  else (some c, st)

/-- The character stream the filter would pass through if it were applied
to a document text.  `process_html` never calls `html_filter_char`, so
this stream exists nowhere in the program: it is what the dead state
machine would produce, used below only to contrast the intended stripping
with the tokenizer's actual behavior. -/
def run_filter : List Char → HtmlState → List Char
  | [], _ => []
  | c :: r, st =>
    match html_filter_char c st with
    | (some o, st1) => o :: run_filter r st1
    | (none, st1) => run_filter r st1

/-! ## The tokenizer the indexer actually runs
(`src/indexer/main.cpp`, lines 100-116 and 160-191)

`process_html` converts the document to wide characters and scans them in
one loop.  It never consults the `HtmlState` it declares: each raw
character goes straight to `is_valid_char`, word-constituent runs are
lowercased into a token buffer capped at 63 characters, and on each
separator the buffered token is stemmed and recorded.  There is no flush
after the loop, so a token still buffered at end of input is dropped. -/

/-- `is_valid_char` (lines 100-105): alphanumeric, or a Russian letter
(the two Cyrillic ranges plus Ё/ё).  `iswalnum` is modelled on the ASCII
range by `Char.isAlphanum`. -/
def is_valid_char (c : Char) : Bool :=
  c.isAlphanum || (decide ('А' ≤ c) && decide (c ≤ 'Я'))
    || (decide ('а' ≤ c) && decide (c ≤ 'я')) || c == 'Ё' || c == 'ё'

/-- `stem` (lines 108-116): at most one suffix is stripped, scanning the
fixed table in source order; the two-character suffixes require length
greater than 4, "ing" requires length greater than 5.  `wcscmp` against
the token's tail is tail equality, i.e. the suffix test. -/
def stem (t : List Char) : List Char :=
  if 4 < t.length ∧ ['о', 'в'].isSuffixOf t then t.take (t.length - 2)
  else if 4 < t.length ∧ ['е', 'в'].isSuffixOf t then t.take (t.length - 2)
  else if 4 < t.length ∧ ['а', 'м'].isSuffixOf t then t.take (t.length - 2)
  else if 4 < t.length ∧ ['ё', 'м'].isSuffixOf t then t.take (t.length - 2)
  else if 5 < t.length ∧ ['i', 'n', 'g'].isSuffixOf t then
    t.take (t.length - 3)
  else if 4 < t.length ∧ ['e', 'd'].isSuffixOf t then t.take (t.length - 2)
  else t

/-- The scanning loop of `process_html` (lines 172-188), yielding the
sequence of tokens handed to `add_term` in order.  `buf` is the token
buffer: a word-constituent character is lowercased and appended while the
buffer holds fewer than 63 characters (`len < MAX_TOKEN_LEN - 1`), any
other character emits the stemmed buffer if it is non-empty.  Exactly as
in the source, the raw input is scanned — no HTML filtering happens — and
a non-empty buffer at end of input emits nothing. -/
def process_tokens : List Char → List Char → List (List Char)
  | [], _ => []
  | c :: r, buf =>
    if is_valid_char c then
      process_tokens r (if buf.length < 63 then buf ++ [c.toLower] else buf)
    else if buf.isEmpty then process_tokens r []
    else stem buf :: process_tokens r []

/-- The tokens `process_html` records for a document, as strings. -/
def tokens_of_html (doc : String) : List String :=
  (process_tokens doc.toList []).map (fun t => String.mk t)

/-! ## The Index Builder (`src/indexer/main.cpp`, lines 119-157)

The indexer's hash table is modelled by the list of its `TermEntry` nodes
(buckets concatenated): `add_term` finds an entry by comparing the full
term (`wcscmp`), so bucket choice influences only iteration order, and
terms are unique across the table.  Terms are `String`s here; postings are
the linked list of doc ids, head first, exactly as `add_doc` builds it. -/

structure ITermEntry where
  term : String
  freq : Nat
  doc_count : Nat
  docs : List Nat
deriving DecidableEq, Repr

/-- `add_doc` (lines 119-132): walk the postings list; if `doc_id` is
already present return unchanged, otherwise prepend a node and increment
`doc_count`. -/
def add_doc (e : ITermEntry) (doc_id : Nat) : ITermEntry :=
  if doc_id ∈ e.docs then e
  else { e with docs := doc_id :: e.docs, doc_count := e.doc_count + 1 }

/-- `add_term` (lines 134-157): walk the table; on a term match, increment
`freq` and call `add_doc`; if no entry matches, create one with
`freq = 1, doc_count = 0, docs = []` and immediately `add_doc` into it. -/
def add_term (token : String) (doc_id : Nat) :
    List ITermEntry → List ITermEntry
  | [] => [add_doc ⟨token, 1, 0, []⟩ doc_id]
  | e :: rest =>
    if e.term = token then add_doc { e with freq := e.freq + 1 } doc_id :: rest
    else e :: add_term token doc_id rest

/-- The index produced by a whole ingestion run: one `add_term` call per
`(token, doc_id)` occurrence, in order, starting from the empty table. -/
def buildIndex (ops : List (String × Nat)) : List ITermEntry :=
  ops.foldl (fun idx p => add_term p.1 p.2 idx) []

/-- Lookup of a term's entry in the table (the `wcscmp` walk). -/
def findEntry (token : String) (idx : List ITermEntry) : Option ITermEntry :=
  idx.find? (fun e => e.term == token)

/-- The fields of an entry other than `freq`: term, doc count, postings. -/
def entryShape (e : ITermEntry) : String × Nat × List Nat :=
  (e.term, e.doc_count, e.docs)

/-! ## The query engine's set algebra (`src/engine/main.cpp`, lines 109-156)

`DocList` is `std::unordered_set<int>`, modelled as `Finset Nat` (the ids
the pipeline produces are the dense non-negative doc ids).  The engine's
state is the loaded term table plus the loaded forward index, of which the
evaluator uses only `documents.size()`. -/

/-- The loaded engine state: term → postings-list table and the number of
loaded documents (`documents.size()`). -/
structure QueryCtx where
  table : List (String × List Nat)
  ndocs : Nat

/-- `get_docs_for_term` (lines 111-122): look the term up; if found, insert
every postings node into a fresh set; otherwise return the empty set. -/
def get_docs_for_term (cx : QueryCtx) (term : String) : Finset Nat :=
  match cx.table.find? (fun p => p.1 == term) with
  | some p => p.2.foldl (fun s d => insert d s) ∅
  | none => ∅

/-- `intersect` (lines 124-140): iterate the smaller set, keeping the
elements found in the larger one. -/
def intersect (a b : Finset Nat) : Finset Nat :=
  if b.card < a.card then b.filter (fun d => d ∈ a)
  else a.filter (fun d => d ∈ b)

/-- `union_op` (lines 142-146): copy `a`, insert all of `b`. -/
def union_op (a b : Finset Nat) : Finset Nat := a ∪ b

/-- `complement` (lines 148-156): walk `i = 0 .. ndocs-1`, inserting every
`i` not found in `a`. -/
def complement (ndocs : Nat) (a : Finset Nat) : Finset Nat :=
  (List.range ndocs).foldl (fun r i => if i ∈ a then r else insert i r) ∅

/-! ## The query lexer (`src/engine/main.cpp`, lines 158-245) -/

/-- `TokenType` with the term payload folded in; `TOKEN_END` is modelled by
the end of the token list. -/
inductive QTok where
  | term (s : String)
  | and
  | or
  | not
  | lparen
  | rparen
deriving DecidableEq, Repr

/-- `std::isspace` on the ASCII queries the engine reads. -/
def cIsSpace (c : Char) : Bool :=
  c = ' ' ∨ c = '\t' ∨ c = '\n' ∨ c = '\x0b' ∨ c = '\x0c' ∨ c = '\r'

/-- The characters at which `read_term` stops: whitespace, parentheses,
`!`, `&`, `|`. -/
def breakChar (c : Char) : Bool :=
  cIsSpace c ∨ c = '(' ∨ c = ')' ∨ c = '!' ∨ c = '&' ∨ c = '|'

/-- `QueryParser::get_next_token` (lines 204-244) on the remaining query
text: skip whitespace; single-character tokens; `&&`/`||` only when
doubled; otherwise `read_term` takes the maximal run of non-break
characters — and when that run is empty (a lone `&` or `|`) the code skips
one character and calls itself again.  `none` is `TOKEN_END`. -/
def get_next_token : List Char → Option QTok × List Char
  | [] => (none, [])
  | c :: r =>
    if cIsSpace c then get_next_token r
    else if c = '(' then (some .lparen, r)
    else if c = ')' then (some .rparen, r)
    else if c = '!' then (some .not, r)
    else if c = '&' then
      match r with
      | '&' :: r2 => (some .and, r2)
      | _ => get_next_token r
    else if c = '|' then
      match r with
      | '|' :: r2 => (some .or, r2)
      | _ => get_next_token r
    else
      (some (.term (String.mk ((c :: r).takeWhile (fun x => !breakChar x)))),
        (c :: r).dropWhile (fun x => !breakChar x))

/-- Drain the lexer into the list of tokens the evaluator will see (the
evaluator pulls one token at a time; a list is the same stream).  Every
produced token consumes at least one character, so `length + 1` calls
always reach `TOKEN_END`. -/
def tokenizeAux : Nat → List Char → List QTok
  | 0, _ => []
  | fuel + 1, l =>
    match get_next_token l with
    | (none, _) => []
    | (some t, r) => t :: tokenizeAux fuel r

/-- All tokens of a query string. -/
def tokenize (q : String) : List QTok :=
  tokenizeAux (q.toList.length + 1) q.toList

/-! ## The query evaluator (`src/engine/main.cpp`, lines 247-314)

`QueryEvaluator` holds one token of lookahead and pulls from the parser;
here the functions walk the token list, the head being `current_token_`.
Each returns the computed set, the unconsumed tokens, and whether an error
message was printed (`std::cerr` in `parse_factor`).  The C++ recursion
always terminates (every loop iteration and every nested `(` consumes a
token); the `fuel` argument is an upper bound on the recursion depth, and
callers pass `4 * length + 4`, which the depth never reaches. -/

/-- Result of one parse routine: value, remaining tokens, error flag. -/
structure PRes where
  val : Finset Nat
  rest : List QTok
  err : Bool
deriving DecidableEq

mutual

/-- `QueryEvaluator::parse_factor` (lines 284-304): a parenthesized
expression — with the "Error: Expected ')'" branch yielding an empty set
and consuming nothing further — or a single term, or the
"Error: Unexpected token" branch yielding an empty set. -/
def parse_factor : Nat → QueryCtx → List QTok → PRes
  | 0, _, ts => ⟨∅, ts, true⟩
  | fuel + 1, cx, ts =>
    match ts with
    | .lparen :: r =>
      let ri := parse_expression fuel cx r
      match ri.rest with
      | .rparen :: r2 => ⟨ri.val, r2, ri.err⟩
      | other => ⟨∅, other, true⟩
    | .term s :: r => ⟨get_docs_for_term cx s, r, false⟩
    | other => ⟨∅, other, true⟩

/-- `QueryEvaluator::parse_term` (lines 274-282): an optional single `!`
applied to the following factor, complemented against the document
universe. -/
def parse_term : Nat → QueryCtx → List QTok → PRes
  | 0, _, ts => ⟨∅, ts, true⟩
  | fuel + 1, cx, ts =>
    match ts with
    | .not :: r =>
      let ri := parse_factor fuel cx r
      ⟨complement cx.ndocs ri.val, ri.rest, ri.err⟩
    | _ => parse_factor fuel cx ts

/-- The `while (current is && or ||)` loop of
`QueryEvaluator::parse_expression` (lines 259-269): fold each further term
into the accumulator strictly left to right, `&&` and `||` at the same
level. -/
def parse_loop : Nat → QueryCtx → Finset Nat → Bool → List QTok → PRes
  | 0, _, _, _, ts => ⟨∅, ts, true⟩
  | fuel + 1, cx, acc, err, ts =>
    match ts with
    | .and :: r =>
      let ri := parse_term fuel cx r
      parse_loop fuel cx (intersect acc ri.val) (err || ri.err) ri.rest
    | .or :: r =>
      let ri := parse_term fuel cx r
      parse_loop fuel cx (union_op acc ri.val) (err || ri.err) ri.rest
    | _ => ⟨acc, ts, err⟩

/-- `QueryEvaluator::parse_expression` (lines 256-272): first term, then
the operator loop. -/
def parse_expression : Nat → QueryCtx → List QTok → PRes
  | 0, _, ts => ⟨∅, ts, true⟩
  | fuel + 1, cx, ts =>
    let ri := parse_term fuel cx ts
    parse_loop fuel cx ri.val ri.err ri.rest

end

/-- `QueryEvaluator::evaluate` (lines 311-313): parse one expression and
return — whatever tokens remain are never looked at. -/
def evaluate (cx : QueryCtx) (ts : List QTok) : PRes :=
  parse_expression (4 * ts.length + 4) cx ts

/-- `search_boolean`'s result set for a query string (lines 342-345). -/
def evalQuery (cx : QueryCtx) (q : String) : Finset Nat :=
  (evaluate cx (tokenize q)).val

/-! ## The boolean query grammar

The grammar of §4.5, as an inductive syntax:
`expression := term (("&&" | "||") term)*`, `term := "!" factor | factor`,
`factor := "(" expression ")" | TERM`.  `toksE` renders an expression to
the token stream the lexer would produce for it; `denE` is the set the
evaluator computes for it, with the operator chain folded strictly left to
right at a single precedence level. -/

mutual

inductive BFact where
  | term : String → BFact
  | paren : BExpr → BFact

inductive BTrm where
  | pos : BFact → BTrm
  | neg : BFact → BTrm

inductive BChain where
  | nil : BChain
  | cons : Bool → BTrm → BChain → BChain

inductive BExpr where
  | mk : BTrm → BChain → BExpr

end

/-- The token of a chain operator: `true` is `&&`, `false` is `||`. -/
def binOpTok : Bool → QTok
  | true => .and
  | false => .or

/-- The evaluator's combination for a chain operator. -/
def binSem : Bool → Finset Nat → Finset Nat → Finset Nat
  | true, x, y => intersect x y
  | false, x, y => union_op x y

mutual

/-- Token stream of a factor. -/
def toksF : BFact → List QTok
  | .term s => [.term s]
  | .paren e => .lparen :: toksE e ++ [.rparen]

/-- Token stream of a (possibly negated) term. -/
def toksT : BTrm → List QTok
  | .pos f => toksF f
  | .neg f => .not :: toksF f

/-- Token stream of an operator chain. -/
def toksC : BChain → List QTok
  | .nil => []
  | .cons op t c => binOpTok op :: toksT t ++ toksC c

/-- Token stream of an expression. -/
def toksE : BExpr → List QTok
  | .mk t c => toksT t ++ toksC c

end

mutual

/-- The set a factor denotes. -/
def denF (cx : QueryCtx) : BFact → Finset Nat
  | .term s => get_docs_for_term cx s
  | .paren e => denE cx e

/-- The set a term denotes. -/
def denT (cx : QueryCtx) : BTrm → Finset Nat
  | .pos f => denF cx f
  | .neg f => complement cx.ndocs (denF cx f)

/-- Left-to-right fold of a chain onto an accumulated set. -/
def denC (cx : QueryCtx) (acc : Finset Nat) : BChain → Finset Nat
  | .nil => acc
  | .cons op t c => denC cx (binSem op acc (denT cx t)) c

/-- The set an expression denotes. -/
def denE (cx : QueryCtx) : BExpr → Finset Nat
  | .mk t c => denC cx (denT cx t) c

end

mutual

/-- Recursion depth the evaluator needs on a factor's tokens. -/
def needF : BFact → Nat
  | .term _ => 1
  | .paren e => needE e + 1

/-- Recursion depth needed on a term's tokens. -/
def needT : BTrm → Nat
  | .pos f => needF f + 1
  | .neg f => needF f + 1

/-- Recursion depth needed on a chain's tokens. -/
def needC : BChain → Nat
  | .nil => 1
  | .cons _ t c => max (needT t) (needC c) + 1

/-- Recursion depth needed on an expression's tokens. -/
def needE : BExpr → Nat
  | .mk t c => max (needT t) (needC c) + 1

end

/-- True when a token list does not begin with `&&` or `||` — the
condition under which the expression loop stops. -/
def headNotOp : List QTok → Bool
  | .and :: _ => false
  | .or :: _ => false
  | _ => true

/-- The engine state used for the concrete counterexamples: two loaded
documents, term "a" occurring in document 0 and term "b" in document 1. -/
def cexCtx : QueryCtx := ⟨[("a", [0]), ("b", [1])], 2⟩

/-- The per-entry invariant of the spec: `doc_count` counts the postings,
the postings have no duplicates, and the total frequency dominates the
document count. -/
def entryInv (e : ITermEntry) : Prop :=
  e.doc_count = e.docs.length ∧ e.docs.Nodup ∧ e.doc_count ≤ e.freq

/-- C1.  Round trip through the binary codec: the claim states that saving
an in-memory index with `save_inverted` and reloading it with
`load_inverted` yields, for every term, the same term string, postings set,
`total_frequency` and `doc_count`.  The code violates this: `save_inverted`
never writes the `freq` field and writes the term in 4-byte `wchar_t`
units, while `load_inverted` first reads an `int64 total_frequency` and
then `term_len` single bytes of term text.  Reloading the saved one-term
index `{term "a", freq 2, doc_count 2, postings {0,1}}` therefore yields
the corrupt entry `{freq = 1 + 97*2^32, term = [1,0], doc_count = 0,
postings = []}`: every field of the claim's round trip fails. -/
theorem c1_roundtrip_bug :
    (load_inverted (some (save_inverted rtIndex)) (fun _ => 0)).errored
        = false
    ∧ (load_inverted (some (save_inverted rtIndex)) (fun _ => 0)).entries
        = [⟨1 + 97 * 2 ^ 32, [1, 0], 0, []⟩]
    ∧ (load_inverted (some (save_inverted rtIndex))
        (fun _ => 0)).entries.map LEntry.term ≠ rtIndex.map IEntry.term
    ∧ (load_inverted (some (save_inverted rtIndex))
        (fun _ => 0)).entries.map LEntry.freq ≠ rtIndex.map IEntry.freq
    ∧ (load_inverted (some (save_inverted rtIndex))
        (fun _ => 0)).entries.map LEntry.docs ≠ rtIndex.map IEntry.docs := by
  refine ⟨rfl, by decide, by decide, by decide, by decide⟩

set_option maxHeartbeats 1600000 in

/-- C6.  The claim states that a load from a file shorter than its declared
counts demand must fail with an explicit error and never silently produce a
truncated or corrupt index.  The code has no such check: on `truncFile` the
doc-id reads run past end-of-file, yet `load_inverted` finishes without any
error (its only error branch is the failed `open`, last conjunct) and
installs an entry that claims five postings while the file supplied two —
the remaining three ids are whatever the uninitialized loop local happened
to hold (any `junk` whatsoever). -/
theorem c6_truncated_load_bug (junk : Nat → Nat) :
    (load_inverted (some truncFile) junk).errored = false
    ∧ (load_inverted (some truncFile) junk).entries.map
        (fun e => (e.freq, e.term, e.doc_count, e.docs.length, e.docs.take 2))
        = [(7, [97], 5, 5, [3, 4])]
    ∧ (load_inverted none junk).errored = true := by
  exact ⟨rfl, rfl, rfl⟩

/-! ## Set-algebra lemmas -/

/-- `intersect` computes set intersection whichever operand it iterates. -/
theorem intersect_inter (a b : Finset Nat) : intersect a b = a ∩ b := by
  unfold intersect
  split
  · rw [Finset.filter_mem_eq_inter, Finset.inter_comm]
  · rw [Finset.filter_mem_eq_inter]

/-- `union_op` computes set union. -/
theorem union_op_union (a b : Finset Nat) : union_op a b = a ∪ b := rfl

/-- Membership in the `complement` fold. -/
theorem mem_complement_fold (a : Finset Nat) :
    ∀ (l : List Nat) (acc : Finset Nat) (x : Nat),
      x ∈ l.foldl (fun r i => if i ∈ a then r else insert i r) acc ↔
        x ∈ acc ∨ (x ∈ l ∧ x ∉ a) := by
  intro l
  induction l with
  | nil => simp
  | cons i l ih =>
    intro acc x
    by_cases hi : i ∈ a
    · simp only [List.foldl, if_pos hi, ih, List.mem_cons]
      constructor
      · rintro (h | h)
        · exact Or.inl h
        · exact Or.inr ⟨Or.inr h.1, h.2⟩
      · rintro (h | ⟨hx | hx, hna⟩)
        · exact Or.inl h
        · exact absurd (hx ▸ hi) hna
        · exact Or.inr ⟨hx, hna⟩
    · simp only [List.foldl, if_neg hi, ih, Finset.mem_insert, List.mem_cons]
      constructor
      · rintro ((h | h) | h)
        · exact Or.inr ⟨Or.inl h, h ▸ hi⟩
        · exact Or.inl h
        · exact Or.inr ⟨Or.inr h.1, h.2⟩
      · rintro (h | ⟨hx | hx, hna⟩)
        · exact Or.inl (Or.inr h)
        · exact Or.inl (Or.inl hx)
        · exact Or.inr ⟨hx, hna⟩

/-- `complement` is set difference from the document universe. -/
theorem complement_sdiff (n : Nat) (a : Finset Nat) :
    complement n a = Finset.range n \ a := by
  ext x
  simp [complement, mem_complement_fold, List.mem_range, Finset.mem_sdiff,
    Finset.mem_range]

/-- C8.  `Not(a)` is evaluated by `complement`, which yields exactly the
relative complement of `a` in the universe `{0 .. document_count - 1}`;
over a loaded index with zero documents the universe is empty, so the
complement — and hence any query of the shape `!term` — is the empty set. -/
theorem c8_complement_universe (n : Nat) (a : Finset Nat)
    (tbl : List (String × List Nat)) (s : String) :
    complement n a = Finset.range n \ a
    ∧ complement 0 a = ∅
    ∧ (evaluate ⟨tbl, 0⟩ [QTok.not, QTok.term s]).val = ∅ := by
  refine ⟨complement_sdiff n a, rfl, ?_⟩
  rfl

/-- C9.  A term absent from the loaded table evaluates to the empty set
and raises no error: `get_docs_for_term` returns an empty `DocList`, the
parse succeeds with the error flag clear, and an enclosing query combines
the empty set normally (here `s || t` evaluates to exactly the postings of
`s`). -/
theorem c9_unknown_term_empty (cx : QueryCtx) (t s : String)
    (h : cx.table.find? (fun p => p.1 == t) = none) :
    get_docs_for_term cx t = ∅
    ∧ (evaluate cx [QTok.term t]).val = ∅
    ∧ (evaluate cx [QTok.term t]).err = false
    ∧ (evaluate cx [QTok.term s, QTok.or, QTok.term t]).err = false
    ∧ (evaluate cx [QTok.term s, QTok.or, QTok.term t]).val
        = get_docs_for_term cx s := by
  have hg : get_docs_for_term cx t = ∅ := by
    unfold get_docs_for_term
    rw [h]
  have h1 : (evaluate cx [QTok.term t]).val = get_docs_for_term cx t := rfl
  have h2 : (evaluate cx [QTok.term s, QTok.or, QTok.term t]).val
      = union_op (get_docs_for_term cx s) (get_docs_for_term cx t) := rfl
  refine ⟨hg, h1.trans hg, rfl, rfl, h2.trans ?_⟩
  rw [hg, union_op_union, Finset.union_empty]

/-- C4, counterexample.  The claim says every query containing a syntax
error evaluates to the empty result set.  The query "a || (b" has a
missing closing parenthesis — the evaluator does print an error (flag
true) — yet its result is `{0}`, the postings of `a`, not the empty set:
only the offending factor is emptied, and the enclosing `||` keeps its
left operand. -/
theorem c4_counterexample :
    (evaluate cexCtx (tokenize "a || (b")).err = true
    ∧ evalQuery cexCtx "a || (b" = {0}
    ∧ ({0} : Finset Nat) ≠ (∅ : Finset Nat) := by
  refine ⟨by decide, by decide, by decide⟩

/-- C4, amended.  A syntax error (missing `)` or a factor position holding
neither `(` nor a term) reports an error and makes the offending factor
evaluate to the empty set; the whole query's result is the normal
combination of that empty set with the rest — empty when the error is at
top level, but e.g. `a || (b` still yields all postings of `a`.  The
evaluator is a total function, so the engine survives the error and keeps
accepting queries. -/
theorem c4_syntax_error_contained (cx : QueryCtx) (a b : String) :
    (evaluate cx [QTok.lparen, QTok.term a]).val = ∅
    ∧ (evaluate cx [QTok.lparen, QTok.term a]).err = true
    ∧ (evaluate cx [QTok.term a, QTok.or, QTok.lparen, QTok.term b]).err
        = true
    ∧ (evaluate cx [QTok.term a, QTok.or, QTok.lparen, QTok.term b]).val
        = get_docs_for_term cx a
    ∧ (evaluate cx [QTok.term a, QTok.and, QTok.lparen, QTok.term b]).val
        = ∅
    ∧ (evaluate cx [QTok.and, QTok.term a]).err = true := by
  have h1 : (evaluate cx [QTok.term a, QTok.or, QTok.lparen, QTok.term b]).val
      = union_op (get_docs_for_term cx a) ∅ := rfl
  have h2 : (evaluate cx [QTok.term a, QTok.and, QTok.lparen, QTok.term b]).val
      = intersect (get_docs_for_term cx a) ∅ := rfl
  refine ⟨rfl, rfl, rfl, h1.trans ?_, h2.trans ?_, rfl⟩
  · rw [union_op_union, Finset.union_empty]
  · rw [intersect_inter, Finset.inter_empty]

/-- C5, counterexample.  The claim says `!!A` equals `A`.  With terms "a"
in document 0 over a two-document universe, "a" evaluates to `{0}` but
"!!a" evaluates to `{0, 1}` (the whole universe): the second `!` is not a
valid factor, so the inner factor errors to the empty set and the outer
`!` complements it. -/
theorem c5_counterexample :
    evalQuery cexCtx "!!a" = {0, 1}
    ∧ evalQuery cexCtx "a" = {0}
    ∧ ({0, 1} : Finset Nat) ≠ ({0} : Finset Nat) := by
  refine ⟨by decide, by decide, by decide⟩

/-- C5, amended.  `!!A` is a syntax error in this grammar (`!` binds to a
factor, and `!` is not a factor): the inner factor yields the empty set,
the outer `!` complements it, and `!!A` therefore evaluates to the whole
universe `{0 .. ndocs - 1}` regardless of `A`, with the error flag set.
Double negation written with parentheses, `!(!A)`, does yield exactly `A`
whenever `A`'s postings lie inside the universe. -/
theorem c5_double_negation (cx : QueryCtx) (s : String)
    (h : get_docs_for_term cx s ⊆ Finset.range cx.ndocs) :
    (evaluate cx [QTok.not, QTok.not, QTok.term s]).val
        = Finset.range cx.ndocs
    ∧ (evaluate cx [QTok.not, QTok.not, QTok.term s]).err = true
    ∧ (evaluate cx [QTok.not, QTok.lparen, QTok.not, QTok.term s,
        QTok.rparen]).val = get_docs_for_term cx s := by
  have h1 : (evaluate cx [QTok.not, QTok.not, QTok.term s]).val
      = complement cx.ndocs ∅ := rfl
  have h2 : (evaluate cx [QTok.not, QTok.lparen, QTok.not, QTok.term s,
      QTok.rparen]).val
      = complement cx.ndocs (complement cx.ndocs (get_docs_for_term cx s))
      := rfl
  refine ⟨h1.trans ?_, rfl, h2.trans ?_⟩
  · rw [complement_sdiff, Finset.sdiff_empty]
  · rw [complement_sdiff, complement_sdiff, Finset.sdiff_sdiff_self_left]
    exact Finset.inter_eq_right.mpr h

/-- Witness for C5's amended statement at the concrete engine state
`cexCtx` and term "a". -/
theorem c5_double_negation_witness :
    get_docs_for_term cexCtx "a" ⊆ Finset.range cexCtx.ndocs
    ∧ (evaluate cexCtx [QTok.not, QTok.lparen, QTok.not, QTok.term "a",
        QTok.rparen]).val = get_docs_for_term cexCtx "a" :=
  ⟨by decide, (c5_double_negation cexCtx "a" (by decide)).2.2⟩

/-- Witness for C9 at `cexCtx` with the unknown term "green". -/
theorem c9_unknown_term_empty_witness :
    cexCtx.table.find? (fun p => p.1 == "green") = none
    ∧ get_docs_for_term cexCtx "green" = ∅
    ∧ (evaluate cexCtx [QTok.term "a", QTok.or, QTok.term "green"]).val
        = get_docs_for_term cexCtx "a" :=
  ⟨by decide, (c9_unknown_term_empty cexCtx "green" "a" (by decide)).1,
    (c9_unknown_term_empty cexCtx "green" "a" (by decide)).2.2.2.2⟩

/-! ## The evaluator on well-formed expression tokens

With enough fuel (the evaluator's recursion depth is bounded by the token
count, and `evaluate` passes `4 * length + 4`), parsing the tokens of a
grammar expression followed by any continuation that does not begin with
an operator consumes exactly the expression's tokens, computes its
left-to-right denotation, and reports no error. -/

mutual

/-- `parse_factor` on a factor's tokens followed by anything. -/
theorem parse_factor_toks (f : BFact) (fuel : Nat) (cx : QueryCtx)
    (rest : List QTok) (h : needF f ≤ fuel) :
    parse_factor fuel cx (toksF f ++ rest) = ⟨denF cx f, rest, false⟩ := by
  obtain ⟨f1, rfl⟩ : ∃ f1, fuel = f1 + 1 := by
    cases f <;> simp [needF] at h <;> exact ⟨fuel - 1, by omega⟩
  cases f with
  | term s => simp [toksF, parse_factor, denF]
  | paren e =>
    have hne : needE e ≤ f1 := by simp [needF] at h; omega
    have ih := parse_expression_toks e f1 cx (QTok.rparen :: rest) hne rfl
    simp only [toksF, List.cons_append, List.append_assoc,
      List.singleton_append, List.nil_append, parse_factor]
    rw [ih]
    simp [denF]

/-- `parse_term` on a term's tokens followed by anything. -/
theorem parse_term_toks (t : BTrm) (fuel : Nat) (cx : QueryCtx)
    (rest : List QTok) (h : needT t ≤ fuel) :
    parse_term fuel cx (toksT t ++ rest) = ⟨denT cx t, rest, false⟩ := by
  obtain ⟨f1, rfl⟩ : ∃ f1, fuel = f1 + 1 := by
    cases t <;> simp [needT] at h <;> exact ⟨fuel - 1, by omega⟩
  cases t with
  | pos f =>
    have hnf : needF f ≤ f1 := by simp [needT] at h; omega
    have ih := parse_factor_toks f f1 cx rest hnf
    cases f with
    | term s =>
      simp only [toksT, toksF, List.cons_append, List.nil_append,
        List.append_assoc, List.singleton_append] at ih ⊢
      simp [parse_term, denT, ih]
    | paren e =>
      simp only [toksT, toksF, List.cons_append, List.nil_append,
        List.append_assoc, List.singleton_append] at ih ⊢
      simp [parse_term, denT, ih]
  | neg f =>
    have hnf : needF f ≤ f1 := by simp [needT] at h; omega
    have ih := parse_factor_toks f f1 cx rest hnf
    simp only [toksT, List.cons_append, parse_term]
    rw [ih]
    simp [denT]

/-- The expression loop on a chain's tokens followed by a non-operator. -/
theorem parse_loop_toks (c : BChain) (fuel : Nat) (cx : QueryCtx)
    (acc : Finset Nat) (err : Bool) (rest : List QTok)
    (h : needC c ≤ fuel) (hrest : headNotOp rest = true) :
    parse_loop fuel cx acc err (toksC c ++ rest) = ⟨denC cx acc c, rest, err⟩
    := by
  obtain ⟨f1, rfl⟩ : ∃ f1, fuel = f1 + 1 := by
    cases c <;> simp [needC] at h <;> exact ⟨fuel - 1, by omega⟩
  cases c with
  | nil =>
    simp only [toksC, List.nil_append, denC]
    match rest, hrest with
    | [], _ => rfl
    | .term s :: r, _ => rfl
    | .not :: r, _ => rfl
    | .lparen :: r, _ => rfl
    | .rparen :: r, _ => rfl
  | cons op t c2 =>
    have hnt : needT t ≤ f1 := by simp [needC] at h; omega
    have hnc : needC c2 ≤ f1 := by simp [needC] at h; omega
    have iht := parse_term_toks t f1 cx (toksC c2 ++ rest) hnt
    have ihc := parse_loop_toks c2 f1 cx (binSem op acc (denT cx t)) err
      rest hnc hrest
    cases op with
    | true =>
      simp only [toksC, binOpTok, List.cons_append, List.append_assoc,
        parse_loop]
      rw [iht]
      simpa [denC, binSem, Bool.or_false] using ihc
    | false =>
      simp only [toksC, binOpTok, List.cons_append, List.append_assoc,
        parse_loop]
      rw [iht]
      simpa [denC, binSem, Bool.or_false] using ihc

/-- `parse_expression` on an expression's tokens followed by a
non-operator continuation. -/
theorem parse_expression_toks (e : BExpr) (fuel : Nat) (cx : QueryCtx)
    (rest : List QTok) (h : needE e ≤ fuel)
    (hrest : headNotOp rest = true) :
    parse_expression fuel cx (toksE e ++ rest) = ⟨denE cx e, rest, false⟩
    := by
  obtain ⟨f1, rfl⟩ : ∃ f1, fuel = f1 + 1 := by
    cases e <;> simp [needE] at h <;> exact ⟨fuel - 1, by omega⟩
  cases e with
  | mk t c =>
    have hnt : needT t ≤ f1 := by simp [needE] at h; omega
    have hnc : needC c ≤ f1 := by simp [needE] at h; omega
    have iht := parse_term_toks t f1 cx (toksC c ++ rest) hnt
    have ihc := parse_loop_toks c f1 cx (denT cx t) false rest hnc hrest
    simp only [toksE, List.append_assoc, parse_expression]
    rw [iht]
    simpa [denE] using ihc

end

mutual

/-- The needed depth of a factor is within the fuel its tokens buy. -/
theorem needF_le (f : BFact) : needF f ≤ 4 * (toksF f).length + 1 := by
  cases f with
  | term s => simp [needF, toksF]
  | paren e =>
    have := needE_le e
    simp only [needF, toksF, List.length_cons, List.length_append,
      List.length_singleton]
    omega

/-- The needed depth of a term is within the fuel its tokens buy. -/
theorem needT_le (t : BTrm) : needT t ≤ 4 * (toksT t).length + 2 := by
  cases t with
  | pos f =>
    have := needF_le f
    simp only [needT, toksT]
    omega
  | neg f =>
    have := needF_le f
    simp only [needT, toksT, List.length_cons]
    omega

/-- The needed depth of a chain is within the fuel its tokens buy. -/
theorem needC_le (c : BChain) : needC c ≤ 4 * (toksC c).length + 1 := by
  cases c with
  | nil => simp [needC, toksC]
  | cons op t c2 =>
    have h1 := needT_le t
    have h2 := needC_le c2
    simp only [needC, toksC, List.length_cons, List.length_append]
    omega

/-- The needed depth of an expression is within the fuel its tokens buy. -/
theorem needE_le (e : BExpr) : needE e ≤ 4 * (toksE e).length + 3 := by
  cases e with
  | mk t c =>
    have h1 := needT_le t
    have h2 := needC_le c
    simp only [needE, toksE, List.length_append]
    omega

end

/-- C10.  `QueryEvaluator::evaluate` returns after parsing one expression
and never checks that the input is exhausted: on the tokens of any
well-formed expression followed by extra tokens not beginning with `&&` or
`||`, the result is exactly the evaluation of the leading expression, the
extra tokens are left unread, and no error is reported.  The lexer turns
two whitespace-separated terms, or two terms separated by a single
unmatched `&`, into exactly such a stream. -/
theorem c10_trailing_tokens_ignored (cx : QueryCtx) (e : BExpr)
    (extra : List QTok) (h : headNotOp extra = true) :
    evaluate cx (toksE e ++ extra) = ⟨denE cx e, extra, false⟩
    ∧ evaluate cx (toksE e) = ⟨denE cx e, [], false⟩
    ∧ (evaluate cx (toksE e ++ extra)).val = (evaluate cx (toksE e)).val
    ∧ (evaluate cx (toksE e ++ extra)).err = false
    ∧ tokenize "red blue" = [QTok.term "red", QTok.term "blue"]
    ∧ tokenize "red & blue" = [QTok.term "red", QTok.term "blue"] := by
  have hb := needE_le e
  have h1 : needE e ≤ 4 * (toksE e ++ extra).length + 4 := by
    simp only [List.length_append]; omega
  have h2 : needE e ≤ 4 * (toksE e).length + 4 := by omega
  have e1 := parse_expression_toks e (4 * (toksE e ++ extra).length + 4) cx
    extra h1 h
  have e2 := parse_expression_toks e (4 * (toksE e).length + 4) cx [] h2 rfl
  rw [List.append_nil] at e2
  refine ⟨e1, e2, ?_, ?_, by decide, by decide⟩
  · rw [show evaluate cx (toksE e ++ extra)
        = parse_expression (4 * (toksE e ++ extra).length + 4) cx
          (toksE e ++ extra) from rfl, e1,
      show evaluate cx (toksE e)
        = parse_expression (4 * (toksE e).length + 4) cx (toksE e) from rfl,
      e2]
  · rw [show evaluate cx (toksE e ++ extra)
        = parse_expression (4 * (toksE e ++ extra).length + 4) cx
          (toksE e ++ extra) from rfl, e1]

/-- Witness for C10: the single-term expression "red" followed by the
stray token "blue" (what the lexer makes of the query "red blue")
evaluates to the postings of "red" alone, with no error. -/
theorem c10_trailing_tokens_ignored_witness :
    headNotOp [QTok.term "blue"] = true
    ∧ evaluate cexCtx
        (toksE (BExpr.mk (BTrm.pos (BFact.term "red")) BChain.nil)
          ++ [QTok.term "blue"])
      = ⟨denE cexCtx (BExpr.mk (BTrm.pos (BFact.term "red")) BChain.nil),
          [QTok.term "blue"], false⟩ :=
  ⟨rfl, (c10_trailing_tokens_ignored cexCtx
    (BExpr.mk (BTrm.pos (BFact.term "red")) BChain.nil)
    [QTok.term "blue"] rfl).1⟩

/-- C3.  `&&` and `||` are parsed at one precedence level, strictly left
to right: a three-operand chain `a o1 b o2 c` evaluates as
`(A o1 B) o2 C` for every mix of the two operators (with `intersect` and
`union_op` being true set intersection and union), `!` applies only to the
single following factor (`! a o1 b` is `(!A) o1 B`), and there is no
AND-binds-tighter rule: over documents `a:{0}, b:{}, c:{}` the query
"a || b && c" evaluates to `({0} ∪ ∅) ∩ ∅ = ∅`, not to the
`{0} ∪ (∅ ∩ ∅) = {0}` an AND-first grammar would give. -/
theorem c3_flat_precedence (cx : QueryCtx) (a b c : String) (o1 o2 : Bool) :
    (evaluate cx [QTok.term a, binOpTok o1, QTok.term b, binOpTok o2,
        QTok.term c]).val
      = binSem o2 (binSem o1 (get_docs_for_term cx a)
          (get_docs_for_term cx b)) (get_docs_for_term cx c)
    ∧ (evaluate cx [QTok.not, QTok.term a, binOpTok o1, QTok.term b]).val
      = binSem o1 (complement cx.ndocs (get_docs_for_term cx a))
          (get_docs_for_term cx b)
    ∧ (∀ x y, intersect x y = x ∩ y ∧ union_op x y = x ∪ y)
    ∧ evalQuery ⟨[("a", [0]), ("b", []), ("c", [])], 1⟩ "a || b && c" = ∅
    ∧ ({0} : Finset Nat) ∪ ((∅ : Finset Nat) ∩ ∅) = {0}
    ∧ (∅ : Finset Nat) ≠ {0} := by
  have hn3 : needE (BExpr.mk (BTrm.pos (BFact.term a))
      (BChain.cons o1 (BTrm.pos (BFact.term b))
        (BChain.cons o2 (BTrm.pos (BFact.term c)) BChain.nil))) ≤ 24 := by
    simp [needE, needT, needF, needC]
  have hn4 : needE (BExpr.mk (BTrm.neg (BFact.term a))
      (BChain.cons o1 (BTrm.pos (BFact.term b)) BChain.nil)) ≤ 20 := by
    simp [needE, needT, needF, needC]
  have k3 := parse_expression_toks
    (BExpr.mk (BTrm.pos (BFact.term a))
      (BChain.cons o1 (BTrm.pos (BFact.term b))
        (BChain.cons o2 (BTrm.pos (BFact.term c)) BChain.nil)))
    24 cx [] hn3 rfl
  have k4 := parse_expression_toks
    (BExpr.mk (BTrm.neg (BFact.term a))
      (BChain.cons o1 (BTrm.pos (BFact.term b)) BChain.nil))
    20 cx [] hn4 rfl
  refine ⟨?_, ?_, fun x y => ⟨intersect_inter x y, union_op_union x y⟩,
    by decide, by decide, by decide⟩
  · simp only [toksE, toksT, toksF, toksC, List.cons_append, List.nil_append,
      List.append_nil, denE, denT, denF, denC] at k3
    rw [show evaluate cx [QTok.term a, binOpTok o1, QTok.term b,
      binOpTok o2, QTok.term c] = parse_expression 24 cx [QTok.term a,
      binOpTok o1, QTok.term b, binOpTok o2, QTok.term c] from rfl, k3]
  · simp only [toksE, toksT, toksF, toksC, List.cons_append, List.nil_append,
      List.append_nil, denE, denT, denF, denC] at k4
    rw [show evaluate cx [QTok.not, QTok.term a, binOpTok o1, QTok.term b]
      = parse_expression 20 cx [QTok.not, QTok.term a, binOpTok o1,
        QTok.term b] from rfl, k4]

/-- C2.  The claim states that the tokenizer strips markup during
ingestion: characters inside a tag contribute no text and script/style
content is discarded, so no token is ever produced from tag bodies or
script/style content.  The code violates this: `process_html` declares an
`HtmlState` but never calls `html_filter_char` (the state machine is dead
code), so the raw character stream is tokenized.  On the document
`ab<p>cd<script>var x</script>ef` the recorded tokens include "p" (a tag
body), "script" (twice, from the tag names) and "var"/"x" (script element
content).  The last conjunct shows the intended behavior the dead filter
would have produced: the markup-free stream `abcdef`. -/
theorem c2_tokenizer_keeps_markup :
    tokens_of_html "ab<p>cd<script>var x</script>ef"
      = ["ab", "p", "cd", "script", "var", "x", "script"]
    ∧ "p" ∈ tokens_of_html "ab<p>cd<script>var x</script>ef"
    ∧ "var" ∈ tokens_of_html "ab<p>cd<script>var x</script>ef"
    ∧ "script" ∈ tokens_of_html "ab<p>cd<script>var x</script>ef"
    ∧ run_filter "ab<p>cd<script>var x</script>ef".toList initHtmlState
      = "abcdef".toList := by
  refine ⟨by decide, by decide, by decide, by decide, by decide⟩

/-! ## Index Builder lemmas -/

/-- A doc already in the postings leaves `add_doc` a no-op. -/
theorem add_doc_of_mem {e : ITermEntry} {d : Nat} (h : d ∈ e.docs) :
    add_doc e d = e := by
  unfold add_doc
  simp [h]

/-- After `add_doc`, the doc is in the postings. -/
theorem add_doc_mem (e : ITermEntry) (d : Nat) : d ∈ (add_doc e d).docs := by
  unfold add_doc
  by_cases h : d ∈ e.docs <;> simp [h]

/-- `add_doc` never touches the term or the frequency. -/
theorem add_doc_term_freq (e : ITermEntry) (d : Nat) :
    (add_doc e d).term = e.term ∧ (add_doc e d).freq = e.freq := by
  unfold add_doc
  by_cases h : d ∈ e.docs <;> simp [h]

/-- `add_doc` preserves the invariant as the builder calls it: either the
frequency was just bumped (strict headroom) or the doc is already
recorded. -/
theorem entryInv_add_doc {e : ITermEntry} {d : Nat}
    (h1 : e.doc_count = e.docs.length) (h2 : e.docs.Nodup)
    (h : e.doc_count < e.freq) : entryInv (add_doc e d) := by
  unfold add_doc entryInv
  by_cases hd : d ∈ e.docs
  · simp only [if_pos hd]
    exact ⟨h1, h2, Nat.le_of_lt h⟩
  · simp only [if_neg hd]
    exact ⟨by simp [h1], List.nodup_cons.mpr ⟨hd, h2⟩, h⟩

/-- `add_term` preserves the invariant over the whole table. -/
theorem add_term_inv (t : String) (d : Nat) :
    ∀ idx : List ITermEntry, (∀ e ∈ idx, entryInv e) →
      ∀ e ∈ add_term t d idx, entryInv e := by
  intro idx
  induction idx with
  | nil =>
    intro _ e he
    simp only [add_term, List.mem_singleton] at he
    subst he
    exact entryInv_add_doc rfl List.nodup_nil Nat.zero_lt_one
  | cons e0 rest ih =>
    intro hall e he
    have h0 := hall e0 (List.mem_cons_self e0 rest)
    by_cases ht : e0.term = t
    · rw [add_term, if_pos ht] at he
      rcases List.mem_cons.mp he with rfl | hmem
      · exact entryInv_add_doc h0.1 h0.2.1 (Nat.lt_succ_of_le h0.2.2)
      · exact hall e (List.mem_cons_of_mem e0 hmem)
    · rw [add_term, if_neg ht] at he
      rcases List.mem_cons.mp he with rfl | hmem
      · exact h0
      · exact ih (fun x hx => hall x (List.mem_cons_of_mem e0 hx)) e hmem

/-- The invariant holds for every entry of an index built by any sequence
of occurrences. -/
theorem buildIndex_inv (ops : List (String × Nat)) :
    ∀ e ∈ buildIndex ops, entryInv e := by
  suffices h : ∀ (ops : List (String × Nat)) (idx : List ITermEntry),
      (∀ e ∈ idx, entryInv e) →
      ∀ e ∈ ops.foldl (fun idx p => add_term p.1 p.2 idx) idx, entryInv e by
    exact h ops [] (by simp)
  intro ops
  induction ops with
  | nil => intro idx h e he; exact h e he
  | cons p rest ih =>
    intro idx h e he
    exact ih (add_term p.1 p.2 idx) (add_term_inv p.1 p.2 idx h) e he

/-- Re-recording the same `(term, doc)` occurrence changes no entry's
term, doc count or postings. -/
theorem add_term_idem (t : String) (d : Nat) :
    ∀ idx : List ITermEntry,
      (add_term t d (add_term t d idx)).map entryShape
        = (add_term t d idx).map entryShape := by
  intro idx
  induction idx with
  | nil => simp [add_term, add_doc, entryShape]
  | cons e0 rest ih =>
    by_cases ht : e0.term = t
    · rw [add_term, if_pos ht]
      have hterm : (add_doc { e0 with freq := e0.freq + 1 } d).term = t :=
        (add_doc_term_freq _ d).1.trans ht
      rw [add_term, if_pos hterm]
      have hmem : d ∈ ({ add_doc { e0 with freq := e0.freq + 1 } d
          with freq := (add_doc { e0 with freq := e0.freq + 1 } d).freq + 1
          } : ITermEntry).docs :=
        add_doc_mem { e0 with freq := e0.freq + 1 } d
      rw [add_doc_of_mem hmem]
      simp [entryShape]
    · rw [add_term, if_neg ht]
      have hterm : e0.term ≠ t := ht
      rw [add_term, if_neg hterm]
      simp only [List.map_cons, ih]

/-- Re-recording the same `(term, doc)` occurrence increments exactly the
term's total frequency. -/
theorem add_term_freq_incr (t : String) (d : Nat) :
    ∀ idx : List ITermEntry,
      findEntry t (add_term t d (add_term t d idx))
        = (findEntry t (add_term t d idx)).map
            (fun e => { e with freq := e.freq + 1 }) := by
  intro idx
  induction idx with
  | nil => simp [add_term, add_doc, findEntry]
  | cons e0 rest ih =>
    by_cases ht : e0.term = t
    · rw [add_term, if_pos ht]
      have hterm : (add_doc { e0 with freq := e0.freq + 1 } d).term = t :=
        (add_doc_term_freq _ d).1.trans ht
      rw [add_term, if_pos hterm]
      have hmem : d ∈ ({ add_doc { e0 with freq := e0.freq + 1 } d
          with freq := (add_doc { e0 with freq := e0.freq + 1 } d).freq + 1
          } : ITermEntry).docs :=
        add_doc_mem { e0 with freq := e0.freq + 1 } d
      rw [add_doc_of_mem hmem]
      simp [findEntry, List.find?, hterm]
    · rw [add_term, if_neg ht]
      have hterm : e0.term ≠ t := ht
      rw [add_term, if_neg hterm]
      simp only [findEntry, List.find?] at ih ⊢
      rw [show (e0.term == t) = false from beq_eq_false_iff_ne.mpr ht]
      exact ih

/-- C7.  `record_occurrence` (`add_term`/`add_doc`): after any sequence of
recorded occurrences every entry satisfies `doc_count = |postings|`, the
postings hold no duplicate doc id, and `total_frequency ≥ doc_count`;
recording the same `(term, doc_id)` pair again is idempotent on every
entry's term, doc count and postings, and only increments the term's total
frequency. -/
theorem c7_record_occurrence (ops : List (String × Nat)) (e : ITermEntry)
    (h : e ∈ buildIndex ops) (idx : List ITermEntry) (t : String)
    (d : Nat) :
    (e.doc_count = e.docs.length ∧ e.docs.Nodup ∧ e.doc_count ≤ e.freq)
    ∧ (add_term t d (add_term t d idx)).map entryShape
        = (add_term t d idx).map entryShape
    ∧ findEntry t (add_term t d (add_term t d idx))
        = (findEntry t (add_term t d idx)).map
            (fun x => { x with freq := x.freq + 1 }) :=
  ⟨buildIndex_inv ops e h, add_term_idem t d idx, add_term_freq_incr t d idx⟩

/-- Witness for C7 on a small ingestion run: "red" occurring twice in
document 0 and "car" once in document 1 yields a "red" entry with
frequency 2 but a single posting, satisfying the invariant. -/
theorem c7_record_occurrence_witness :
    (⟨"red", 2, 1, [0]⟩ : ITermEntry)
        ∈ buildIndex [("red", 0), ("red", 0), ("car", 1)]
    ∧ ((⟨"red", 2, 1, [0]⟩ : ITermEntry).doc_count
          = (⟨"red", 2, 1, [0]⟩ : ITermEntry).docs.length
        ∧ (⟨"red", 2, 1, [0]⟩ : ITermEntry).docs.Nodup
        ∧ (⟨"red", 2, 1, [0]⟩ : ITermEntry).doc_count
          ≤ (⟨"red", 2, 1, [0]⟩ : ITermEntry).freq) :=
  ⟨by decide,
    (c7_record_occurrence [("red", 0), ("red", 0), ("car", 1)]
      ⟨"red", 2, 1, [0]⟩ (by decide) [] "x" 3).1⟩
